import Mathlib

/-!
Verification of the brimtext text-formatting library.

Go strings and byte slices are modelled as `List Char` (`GStr`): each `Char`
is one Unicode codepoint, `byteLen` gives the UTF-8 byte count that Go's
`len` returns, and `runeCount` gives what `utf8.RuneCountInString` returns.
Searching for the single-byte characters ESC (0x1b), 'm', ' ', and '\n' at
codepoint granularity agrees with Go's byte-level search, because bytes
below 0x80 occur in UTF-8 only as the encoding of their own codepoint.

The one I/O operation, `terminal.GetSize`, is modelled by passing its
result (an `Option Int`: `none` for an error) as an explicit argument.
-/

namespace Brimtext

/-- A Go string / byte slice: list of codepoints. -/
abbrev GStr := List Char

/-- Coerce a Lean string literal into the model. -/
def gstr (s : String) : GStr := s.data

/-- Go `len` on a string / `[]byte`: UTF-8 byte count. -/
def byteLen (s : GStr) : Nat := (s.map Char.utf8Size).sum

/-- Go `utf8.RuneCountInString`: codepoint count. -/
def runeCount (s : GStr) : Nat := s.length

/-- `n` spaces, as emitted by the padding loops in `Align`. -/
def spaces (n : Nat) : GStr := List.replicate n ' '

/-- Source `AllEqual` (part_000 lines 193-204): true iff all the strings are
equal; fewer than two strings are considered all equal. -/
def AllEqual (values : List GStr) : Bool :=
  match values with
  | [] => true
  | compare :: rest => rest.all (fun v => v = compare)

/-- Index of the first occurrence of the sequence `sep` in `s`, as Go's
`bytes.Index` would report it, at codepoint granularity. -/
def findSeq? (sep : GStr) (s : GStr) : Option Nat :=
  if sep.isPrefixOf s then some 0
  else
    match s with
    | [] => none
    | _ :: t => (findSeq? sep t).map (· + 1)

/-- Go `bytes.Split(s, sep)` for a nonempty separator, with an explicit
fuel bound on the number of split steps (each step consumes at least one
element, so `s.length` fuel always suffices; the `0` case is unreachable
then). -/
def goSplitSeqF (sep : GStr) : Nat → GStr → List GStr
  | 0, s => [s]
  | fuel + 1, s =>
    match findSeq? sep s with
    | none => [s]
    | some i => s.take i :: goSplitSeqF sep fuel (s.drop (i + sep.length))

/-- Go `bytes.Split(s, sep)` for a nonempty separator: splits around each
leftmost non-overlapping instance of `sep`. -/
def goSplitSeq (sep : GStr) (s : GStr) : List GStr :=
  if sep = [] then [s] else goSplitSeqF sep s.length s

/-- The loop of Go `bytes.Replace(s, old, new, -1)` for a nonempty `old`,
with fuel (each step consumes at least one element of `s`, so `s.length`
fuel always suffices). -/
def goReplaceF (old new : GStr) : Nat → GStr → GStr
  | 0, s => s
  | fuel + 1, s =>
    if old.isPrefixOf s then new ++ goReplaceF old new fuel (s.drop old.length)
    else
      match s with
      | [] => []
      | c :: t => c :: goReplaceF old new fuel t

/-- Go `bytes.Replace(s, old, new, -1)` for a nonempty `old`: replaces each
leftmost non-overlapping instance. -/
def goReplace (old new : GStr) (s : GStr) : GStr :=
  if old = [] then s else goReplaceF old new s.length s

/-- Go `bytes.Trim(s, "\n")`: drop leading and trailing newline characters
(part_000 line 135). -/
def trimNL (s : GStr) : GStr :=
  (s.dropWhile (fun c => c = '\n')).rdropWhile (fun c => c = '\n')

/-- The escape-scanning loop of `wrap` (part_000 lines 153-167), with fuel
(each step drops at least two elements of `scan`, so `scan.length` fuel
always suffices): subtracts from `wordLen` the byte span of each ANSI
escape sequence `ESC ... 'm'`. When an ESC has no following 'm' the Go
loop makes no progress (the `i++` is recomputed from scratch on the next
iteration), so that branch is modelled as stopping with the current
length; no input considered here reaches it. -/
def visLoopF : Nat → Nat → GStr → Nat
  | 0, wordLen, _ => wordLen
  | fuel + 1, wordLen, scan =>
    if byteLen scan > 1 then
      match scan.findIdx? (fun c => c = '\x1b') with
      | none => wordLen
      | some i =>
        match (scan.drop (i + 1)).findIdx? (fun c => c = 'm') with
        | none => wordLen
        | some j0 =>
          visLoopF fuel (wordLen - byteLen ((scan.drop i).take (j0 + 2)))
            (scan.drop (i + j0 + 2))
    else wordLen

/-- Visible length of a word: its byte length minus its ANSI escape spans
(part_000 lines 149-167). -/
def visLen (word : GStr) : Nat := visLoopF word.length (byteLen word) word

/-- The word loop of `wrap` (part_000 lines 148-184), with the output
buffer, current line length and first-word flag threaded explicitly. -/
def wrapWords (width : Int) (i1 i2 : GStr) :
    List GStr → GStr → Nat → Bool → GStr
  | [], out, _, _ => out
  | w :: ws, out, lineLen, start =>
    if w = [] then wrapWords width i1 i2 ws out lineLen start
    else if start then
      wrapWords width i1 i2 ws (out ++ i1 ++ w) (byteLen i1 + visLen w) false
    else if (lineLen : Int) + 1 + (visLen w : Int) > width then
      wrapWords width i1 i2 ws (out ++ gstr "\n" ++ i2 ++ w)
        (byteLen i2 + visLen w) false
    else
      wrapWords width i1 i2 ws (out ++ gstr " " ++ w) (lineLen + 1 + visLen w)
        false

/-- One paragraph of `wrap`: newlines already collapsed to spaces, then the
word loop starting from an empty line (part_000 lines 145-184). -/
def wrapPar (par : GStr) (width : Int) (i1 i2 : GStr) : GStr :=
  wrapWords width i1 i2 (List.splitOn ' ' (goReplace (gstr "\n") (gstr " ") par)) [] 0 true

/-- Source `wrap` (part_000 lines 138-189). The shared output buffer is the
concatenation of the per-paragraph outputs, each followed by two newlines. -/
def wrap (text : GStr) (width : Int) (i1 i2 : GStr) : GStr :=
  if text = [] then text
  else
    ((goSplitSeq (gstr "\n\n") (goReplace (gstr "\r\n") (gstr "\n") text)).map
      (fun par => wrapPar par width i1 i2 ++ gstr "\n\n")).flatten

/-- Source `GetTTYWidth` (terminal.go lines 10-23): the `terminal.GetSize`
I/O result is passed in as `sizeResult` (`none` models an error); on error
the width falls back to 80. -/
def GetTTYWidth (sizeResult : Option Int) : Int :=
  match sizeResult with
  | none => 80
  | some width => width

/-- The width resolution of `Wrap` (part_000 lines 130-132): a width below
1 becomes the terminal width minus one plus the given width. -/
def effWidth (width : Int) (sizeResult : Option Int) : Int :=
  if width < 1 then GetTTYWidth sizeResult - 1 + width else width

/-- Source `Wrap` (part_000 lines 129-136): the width is resolved, the
core wrap runs, and outer newlines are trimmed. -/
def Wrap (text : GStr) (width : Int) (i1 i2 : GStr) (sizeResult : Option Int) :
    GStr :=
  trimNL (wrap text (effWidth width sizeResult) i1 i2)

/-- One insertion step of `ThousandsSep`: `s = s[:i] + "," + s[i:]`. -/
def thouIns (s : GStr) (i : Nat) : GStr := s.take i ++ gstr "," ++ s.drop i

/-- The insertion loop of `ThousandsSep` (part_000 lines 31-33), with fuel
(`i` itself always suffices since it strictly decreases): `i` starts at
`len(s) - 3` and decreases by 3 while positive. Indices below each
insertion point are unaffected by it, so iterating on the original indices
is exact. -/
def thouLoopF : Nat → GStr → Nat → GStr
  | 0, s, _ => s
  | fuel + 1, s, i => if i > 0 then thouLoopF fuel (thouIns s i) (i - 3) else s

/-- The insertion loop of `ThousandsSep`, at its starting index. -/
def thouLoop (s : GStr) (i : Nat) : GStr := thouLoopF i s i

/-- Source `ThousandsSep` (part_000 lines 29-35). `strconv.FormatInt(v, 10)`
is the decimal representation with a leading minus sign for negatives,
which is `Int.repr`. The `sep` argument is received but never used. -/
def ThousandsSep (v : Int) (sep : GStr) : GStr :=
  let s := gstr (toString v)
  thouLoop s (s.length - 3)

/-- Source `ThousandsSepU` (part_000 lines 39-45), over unsigned values. -/
def ThousandsSepU (v : Nat) (sep : GStr) : GStr :=
  let s := gstr (toString v)
  thouLoop s (s.length - 3)

/-! ## The table renderer (part_001) -/

/-- Per-column alignment (part_001 lines 9-15). -/
inductive Alignment
  | Left
  | Right
  | Center
deriving DecidableEq, Repr

/-- A grid row: `none` is a caller-supplied nil separator row, `some cells`
a data row. -/
abbrev Row := Option (List GStr)

/-- Source `AlignOptions` (part_001 lines 17-62). A Go `nil` `Widths` slice
is `none`; `Alignments` may keep its slice form because the code treats a
nil slice and a short slice identically. -/
structure AlignOptions where
  Widths : Option (List Int) := none
  Alignments : List Alignment := []
  FirstDR : GStr := []
  FirstLR : GStr := []
  FirstFirstDLR : GStr := []
  FirstDLR : GStr := []
  FirstDL : GStr := []
  RowFirstUD : GStr := []
  RowSecondUD : GStr := []
  RowUD : GStr := []
  RowLastUD : GStr := []
  LeaveTrailingWhitespace : Bool := false
  FirstNilFirstUDR : GStr := []
  FirstNilLR : GStr := []
  FirstNilFirstUDLR : GStr := []
  FirstNilUDLR : GStr := []
  FirstNilLastUDL : GStr := []
  NilFirstUDR : GStr := []
  NilLR : GStr := []
  NilFirstUDLR : GStr := []
  NilUDLR : GStr := []
  NilLastUDL : GStr := []
  LastUR : GStr := []
  LastLR : GStr := []
  LastFirstULR : GStr := []
  LastULR : GStr := []
  LastUL : GStr := []
  NilBetweenEveryRow : Bool := false
deriving DecidableEq, Repr

/-- Source `NewDefaultAlignOptions` (part_001 lines 74-76). -/
def NewDefaultAlignOptions : AlignOptions :=
  { RowSecondUD := gstr " ", RowUD := gstr " " }

/-- The per-cell rewrap step of `Align` (part_001 lines 298-308): with a
configured `Widths`, a cell in a column with a positive width is passed
through `Wrap` with empty prefixes. -/
def wrapRow (opts : AlignOptions) (sizeResult : Option Int) (row : List GStr) :
    List GStr :=
  match opts.Widths with
  | none => row
  | some ws =>
    (List.range row.length).map (fun col =>
      let cell := row.getD col []
      if col ≥ ws.length ∨ ws.getD col 0 ≤ 0 then cell
      else Wrap cell (ws.getD col 0) [] [] sizeResult)

/-- One cell's line list (part_001 lines 310-313): CRLF normalized, then
split on newlines. -/
def splitCell (cell : GStr) : List GStr :=
  List.splitOn '\n' (goReplace (gstr "\r\n") (gstr "\n") cell)

/-- `maxCells` (part_001 lines 314-320): largest line count of any cell. -/
def maxSplit (work : List (List GStr)) : Nat :=
  work.foldl (fun m cells => max m cells.length) 0

/-- Multi-line expansion of one row (part_001 lines 309-335): the row
becomes `maxCells` physical rows; physical row `c` takes each column's
`c`-th line, or the empty string when that column has fewer lines. -/
def expandRow (row : List GStr) : List (List GStr) :=
  let work := row.map splitCell
  (List.range (maxSplit work)).map (fun c =>
    work.map (fun cells => cells.getD c []))

/-- One step of the grid-rewriting pass of `Align` (part_001 lines
291-336): a caller nil row survives only without `NilBetweenEveryRow`; a
data row is rewrapped and expanded, preceded by a synthesized nil when the
flag is set and output was already produced. -/
def preprocessStep (opts : AlignOptions) (sizeResult : Option Int)
    (newData : List Row) (row : Row) : List Row :=
  match row with
  | none => if !opts.NilBetweenEveryRow then newData ++ [none] else newData
  | some r =>
    let newRows := (expandRow (wrapRow opts sizeResult r)).map some
    let newData :=
      if opts.NilBetweenEveryRow ∧ newData ≠ [] then newData ++ [none]
      else newData
    newData ++ newRows

/-- The grid-rewriting pass of `Align` (part_001 lines 290-337), folding
the rows into `newData`. -/
def preprocess (data : List Row) (opts : AlignOptions)
    (sizeResult : Option Int) : List Row :=
  data.foldl (preprocessStep opts sizeResult) []

/-- The width-extension loop (part_001 lines 344-346), with fuel
(`r.length` always suffices): while the row is longer than `widths`,
append the *byte* length of the row's cell at the next index. -/
def extendWF : Nat → List Nat → List GStr → List Nat
  | 0, widths, _ => widths
  | fuel + 1, widths, r =>
    if r.length > widths.length then
      extendWF fuel (widths ++ [byteLen (r.getD widths.length [])]) r
    else widths

/-- The width-extension loop, at full fuel. -/
def extendW (widths : List Nat) (r : List GStr) : List Nat :=
  extendWF r.length widths r

/-- The width-raising loop (part_001 lines 347-351): raise each tracked
width to the cell's codepoint count when larger. -/
def bumpW : List Nat → List GStr → List Nat
  | ws, [] => ws
  | [], _ :: _ => []
  | w :: ws, v :: vs => max w (runeCount v) :: bumpW ws vs

/-- One step of the width fold (part_001 lines 340-352): nil rows are
skipped; a data row first extends, then raises, the width list. -/
def widthsStep (widths : List Nat) (row : Row) : List Nat :=
  match row with
  | none => widths
  | some r => bumpW (extendW widths r) r

/-- Column widths over the rewritten grid (part_001 lines 339-352). -/
def widthsOf (data : List Row) : List Nat :=
  data.foldl widthsStep []

/-- Alignment resolution (part_001 lines 353-360): pad a short (or nil)
alignment list with `Left` up to the column count. -/
def resolveAlignments (alignments : List Alignment) (n : Nat) :
    List Alignment :=
  if alignments.length < n then
    alignments ++ List.replicate (n - alignments.length) Alignment.Left
  else alignments

/-- A border or separator line (part_001 lines 369-381, 388-399, 404-415,
457-469): the left glyph, then per column a junction (the first-junction
glyph for column 1, the other-junction glyph for later columns, nothing
for column 0) followed by `width` repetitions of the fill glyph, closed by
the right glyph and a newline. -/
def sepLine (udr fudlr udlr lr udl : GStr) (widths : List Nat) : GStr :=
  udr ++
    (widths.enum.map (fun p =>
      (if p.1 = 1 then fudlr else if p.1 ≠ 0 then udlr else []) ++
        (List.replicate p.2 lr).flatten)).flatten ++
    udl ++ gstr "\n"

/-- One cell's padded field (part_001 lines 428-451). Go's counting loops
run zero times for non-positive counts, which truncated `Nat` subtraction
reproduces. -/
def alignField (a : Alignment) (w : Nat) (v : GStr) (padRight : Bool) :
    GStr :=
  match a with
  | Alignment.Right => spaces (w - runeCount v) ++ v
  | Alignment.Center =>
    spaces ((w - runeCount v) / 2) ++ v ++
      (if padRight then spaces (w - ((w - runeCount v) / 2 + runeCount v))
       else [])
  | Alignment.Left =>
    v ++ (if padRight then spaces (w - runeCount v) else [])

/-- The cell loop of a data row (part_001 lines 422-452): for each cell of
the row (and only those), a connector (`RowSecondUD` for column 1, `RowUD`
for later columns, nothing for column 0) and the padded field; the right
padding of the final cell is kept only with `LeaveTrailingWhitespace`. -/
def dataRowBody (opts : AlignOptions) (aligns : List Alignment)
    (widths : List Nat) (r : List GStr) : GStr :=
  (r.enum.map (fun p =>
    (if p.1 = 1 then opts.RowSecondUD
     else if p.1 ≠ 0 then opts.RowUD else []) ++
      alignField (aligns.getD p.1 Alignment.Left) (widths.getD p.1 0) p.2
        (opts.LeaveTrailingWhitespace || p.1 < r.length - 1))).flatten

/-- A full data row line (part_001 lines 421-454). -/
def dataRowLine (opts : AlignOptions) (aligns : List Alignment)
    (widths : List Nat) (r : List GStr) : GStr :=
  opts.RowFirstUD ++ dataRowBody opts aligns widths r ++ opts.RowLastUD ++
    gstr "\n"

/-- The row-emission loop (part_001 lines 383-455), carrying the
`firstNil` flag: the first nil row uses the `FirstNil` glyph set, later
ones the `Nil` set, and either is suppressed when all five glyphs are
empty (a bare newline is still emitted). -/
def rowsOut (opts : AlignOptions) (aligns : List Alignment)
    (widths : List Nat) : List Row → Bool → GStr
  | [], _ => []
  | none :: rest, firstNil =>
    if firstNil then
      (if !AllEqual [[], opts.FirstNilFirstUDR, opts.FirstNilFirstUDLR,
          opts.FirstNilUDLR, opts.FirstNilLR, opts.FirstNilLastUDL] then
        sepLine opts.FirstNilFirstUDR opts.FirstNilFirstUDLR
          opts.FirstNilUDLR opts.FirstNilLR opts.FirstNilLastUDL widths
      else gstr "\n") ++ rowsOut opts aligns widths rest false
    else
      (if !AllEqual [[], opts.NilFirstUDR, opts.NilFirstUDLR, opts.NilUDLR,
          opts.NilLR, opts.NilLastUDL] then
        sepLine opts.NilFirstUDR opts.NilFirstUDLR opts.NilUDLR opts.NilLR
          opts.NilLastUDL widths
      else gstr "\n") ++ rowsOut opts aligns widths rest firstNil
  | some r :: rest, firstNil =>
    dataRowLine opts aligns widths r ++ rowsOut opts aligns widths rest firstNil

/-- Source `Align` (part_001 lines 283-472). Returns `none` exactly when
the Go code panics: a nonempty input grid whose rewriting drops every row
makes `len(data[0])` on line 339 index an empty slice. A nil options
pointer is `none` and uses the defaults. The `est` arithmetic (lines
361-367) only sizes the output buffer and has no observable effect. -/
def Align (data : List Row) (opts : Option AlignOptions)
    (sizeResult : Option Int) : Option GStr :=
  if data = [] then some []
  else
    let opts := opts.getD NewDefaultAlignOptions
    let data := preprocess data opts sizeResult
    if data = [] then none
    else
      let widths := widthsOf data
      let aligns := resolveAlignments opts.Alignments widths.length
      some
        ((if !AllEqual [[], opts.FirstDR, opts.FirstFirstDLR, opts.FirstDLR,
            opts.FirstLR, opts.FirstDL] then
          sepLine opts.FirstDR opts.FirstFirstDLR opts.FirstDLR opts.FirstLR
            opts.FirstDL widths
        else []) ++
        rowsOut opts aligns widths data true ++
        (if !AllEqual [[], opts.LastUR, opts.LastFirstULR, opts.LastULR,
            opts.LastLR, opts.LastUL] then
          sepLine opts.LastUR opts.LastFirstULR opts.LastULR opts.LastLR
            opts.LastUL widths
        else []))

/-! ## Spec-side definitions

These follow the specification's words, to be compared with the
source-derived definitions above. -/

/-- The greedy fill of spec §4.1, line-structured: a word starts a new
line (prefixed by the continuation prefix) exactly when appending it — one
space plus its visible length — would exceed the width; otherwise it is
appended to the current line after a single space. Words are assumed
nonempty. -/
def specGreedy (width : Int) (i2 : GStr) :
    List GStr → GStr → Nat → List GStr
  | [], cur, _ => [cur]
  | w :: ws, cur, curLen =>
    if (curLen : Int) + 1 + (visLen w : Int) > width then
      cur :: specGreedy width i2 ws (i2 ++ w) (byteLen i2 + visLen w)
    else specGreedy width i2 ws (cur ++ gstr " " ++ w) (curLen + 1 + visLen w)

/-- The lines of one wrapped paragraph per spec §4.1: single line breaks
become spaces (paragraph reflow), words are the whitespace-delimited
nonempty runs (so whitespace runs collapse), the first word is preceded by
the first-line prefix, and the greedy fill distributes the rest. -/
def wrapSpecLines (width : Int) (i1 i2 : GStr) (par : GStr) : List GStr :=
  match (List.splitOn ' ' (goReplace (gstr "\n") (gstr " ") par)).filter
      (fun w => w ≠ []) with
  | [] => []
  | w0 :: ws => specGreedy width i2 ws (i1 ++ w0) (byteLen i1 + visLen w0)

/-- The wrapped text per spec §4.1: CRLF normalized, paragraphs split on
blank lines and wrapped independently, joined by a blank line, with
leading and trailing blank lines trimmed; empty input stays empty. -/
def wrapSpec (text : GStr) (width : Int) (i1 i2 : GStr) : GStr :=
  if text = [] then []
  else
    trimNL (List.intercalate (gstr "\n\n")
      ((goSplitSeq (gstr "\n\n") (goReplace (gstr "\r\n") (gstr "\n") text)).map
        (fun par => List.intercalate (gstr "\n") (wrapSpecLines width i1 i2 par))))

/-- The words `wrap` distributes over lines: per paragraph, the nonempty
space-delimited runs after newlines are collapsed to spaces. These are the
maximal whitespace-free runs of the (CRLF-normalized) input. -/
def wordsOf (text : GStr) : List GStr :=
  (goSplitSeq (gstr "\n\n") (goReplace (gstr "\r\n") (gstr "\n") text)).flatMap
    (fun par =>
      (List.splitOn ' ' (goReplace (gstr "\n") (gstr " ") par)).filter
        (fun w => w ≠ []))

/-- The column count per spec §4.2.3: the running maximum number of cells
of any data row. -/
def columnCount (data : List Row) : Nat :=
  (data.filterMap id).foldr (fun r m => max r.length m) 0

/-- Column widths per spec §3 "Column Width": one entry per column of the
widest row, each the maximum codepoint count of any cell placed in that
column (missing cells of narrower rows count as empty), over the non-nil
rows. -/
def specColWidths (data : List Row) : List Nat :=
  (List.range (columnCount data)).map (fun c =>
    (data.filterMap id).foldr (fun r m => max (runeCount (r.getD c [])) m) 0)

/-- All cells of the grid's data rows are single-byte characters, so Go's
byte lengths and codepoint counts agree. -/
def asciiGrid (data : List Row) : Prop :=
  ∀ r ∈ data.filterMap id, ∀ cell ∈ r, byteLen cell = runeCount cell

/-- Pad every data row with empty cells up to `n` columns (spec §4.2.3:
narrower rows are treated as having empty cells for missing columns). -/
def padGrid (n : Nat) (data : List Row) : List Row :=
  data.map (fun row => row.map (fun r => r ++ List.replicate (n - r.length) []))

instance : DecidablePred asciiGrid := fun data =>
  decidable_of_iff
    (∀ r ∈ data.filterMap id, ∀ cell ∈ r, byteLen cell = runeCount cell)
    Iff.rfl

/-! ## Theorems -/

/-- C10: `ThousandsSep` and `ThousandsSepU` ignore their `sep` argument —
any two separators give the same output — and the separator inserted at
each thousands position is the literal comma, as the concrete calls with
`";"` show. -/
theorem thousandsSep_ignores_sep :
    (∀ (v : Int) (sep1 sep2 : GStr), ThousandsSep v sep1 = ThousandsSep v sep2) ∧
    (∀ (v : Nat) (sep1 sep2 : GStr), ThousandsSepU v sep1 = ThousandsSepU v sep2) ∧
    ThousandsSep 1234567 (gstr ";") = gstr "1,234,567" ∧
    ThousandsSepU 1234567 (gstr ";") = gstr "1,234,567" ∧
    ThousandsSep (-1000) (gstr ";") = gstr "-1,000" :=
  ⟨fun _ _ _ => rfl, fun _ _ _ => rfl, by decide, by decide, by decide⟩

/-- C7: ANSI escape sequences contribute zero width to wrapping
decisions: the escaped sentence wraps with its line breaks after "a" and
after the escaped "test", exactly where the unescaped sentence breaks, and
the escaped word's visible length equals the plain word's length. -/
theorem wrap_ansi_zero_width :
    Wrap (gstr "Just a \x1b[1mtest\x1b[0m sentence.") 10 [] [] none
      = gstr "Just a\n\x1b[1mtest\x1b[0m\nsentence." ∧
    Wrap (gstr "Just a test sentence.") 10 [] [] none
      = gstr "Just a\ntest\nsentence." ∧
    visLen (gstr "\x1b[1mtest\x1b[0m") = visLen (gstr "test") := by
  refine ⟨by decide, by decide, by decide⟩

/-- C3 counterexample: at width `-71` with ambient width 80, `Wrap` does
not wrap at width `80 + (-71) = 9` as the claim's "ambient terminal width
plus the given width" would demand; it wraps at `80 - 1 + (-71) = 8`. -/
theorem wrap_width_resolution_counterexample :
    Wrap (gstr "aaaa bbbb") (-71) [] [] (some 80)
        ≠ trimNL (wrap (gstr "aaaa bbbb") (80 + (-71)) [] []) ∧
    Wrap (gstr "aaaa bbbb") (-71) [] [] (some 80)
        = trimNL (wrap (gstr "aaaa bbbb") (80 - 1 + (-71)) [] []) := by
  refine ⟨by decide, by decide⟩

/-- C3 amended: for `width ≤ 0` the effective wrapping width is the
ambient terminal width *minus one* plus the given width, where the
ambient width is the width-provider result, falling back to 80 when
unavailable. -/
theorem wrap_width_resolution (text : GStr) (width : Int) (i1 i2 : GStr)
    (sz : Option Int) (h : width ≤ 0) :
    Wrap text width i1 i2 sz
      = trimNL (wrap text (GetTTYWidth sz - 1 + width) i1 i2) ∧
    GetTTYWidth none = 80 ∧ (∀ n : Int, GetTTYWidth (some n) = n) := by
  have hlt : width < 1 := by omega
  refine ⟨?_, rfl, fun _ => rfl⟩
  unfold Wrap effWidth
  simp [hlt]

/-- Witness for C3 amended at width `-71`, no ambient width available. -/
theorem wrap_width_resolution_witness :
    (-71 : Int) ≤ 0 ∧
    (Wrap (gstr "aaaa bbbb") (-71) [] [] none
        = trimNL (wrap (gstr "aaaa bbbb") (GetTTYWidth none - 1 + (-71)) [] []) ∧
      GetTTYWidth none = 80 ∧ (∀ n : Int, GetTTYWidth (some n) = n)) :=
  ⟨by decide, wrap_width_resolution (gstr "aaaa bbbb") (-71) [] [] none (by decide)⟩

/-- A positive explicit width never consults the terminal size. -/
theorem wrap_pos_width_ignores_size (text : GStr) (width : Int) (i1 i2 : GStr)
    (h : 1 ≤ width) (sz1 sz2 : Option Int) :
    Wrap text width i1 i2 sz1 = Wrap text width i1 i2 sz2 := by
  have hlt : ¬ width < 1 := by omega
  unfold Wrap effWidth
  simp [hlt]

/-- `wrapRow` only calls `Wrap` with a configured strictly positive
column width, so the terminal size result is irrelevant. -/
theorem wrapRow_ignores_size (opts : AlignOptions) (sz1 sz2 : Option Int)
    (r : List GStr) : wrapRow opts sz1 r = wrapRow opts sz2 r := by
  unfold wrapRow
  cases opts.Widths with
  | none => rfl
  | some ws =>
    apply List.map_congr_left
    intro col _
    split
    · rfl
    · next hg =>
      push_neg at hg
      exact wrap_pos_width_ignores_size _ _ [] [] (by omega) sz1 sz2

/-- Each rewriting step is independent of the terminal size result. -/
theorem preprocessStep_ignores_size (opts : AlignOptions)
    (sz1 sz2 : Option Int) (acc : List Row) (row : Row) :
    preprocessStep opts sz1 acc row = preprocessStep opts sz2 acc row := by
  cases row with
  | none => rfl
  | some r => simp only [preprocessStep, wrapRow_ignores_size opts sz1 sz2 r]

/-- `preprocess` is independent of the terminal size result. -/
theorem preprocess_ignores_size (data : List Row) (opts : AlignOptions)
    (sz1 sz2 : Option Int) :
    preprocess data opts sz1 = preprocess data opts sz2 := by
  unfold preprocess
  induction data using List.reverseRecOn with
  | nil => rfl
  | append_singleton rest row ih =>
    rw [List.foldl_append, List.foldl_append, ih]
    simp only [List.foldl_cons, List.foldl_nil]
    exact preprocessStep_ignores_size opts sz1 sz2 _ _

/-- C4: `Align` is a pure function of the grid and the options: its
result does not depend on the ambient terminal width, because its only
`Wrap` call uses a configured strictly positive column width, which makes
the terminal-width branch of `Wrap` unreachable. -/
theorem align_ignores_ambient_width (data : List Row)
    (opts : Option AlignOptions) (sz1 sz2 : Option Int) :
    Align data opts sz1 = Align data opts sz2 := by
  unfold Align
  simp only [preprocess_ignores_size data (opts.getD NewDefaultAlignOptions) sz1 sz2]

theorem intercalate_singleton_cons (s : α) (b : List α)
    (bs : List (List α)) :
    List.intercalate [s] (b :: bs) = b ++ bs.flatMap (fun x => s :: x) := by
  induction bs generalizing b with
  | nil => simp [List.intercalate]
  | cons c cs ih =>
    simp only [List.intercalate, List.intersperse_cons_cons,
      List.flatten] at ih ⊢
    rw [ih c]
    simp

theorem getD_map_range (n : Nat) (f : Nat → α) (k : Nat) (d : α)
    (hk : k < n) : ((List.range n).map f).getD k d = f k := by
  rw [List.getD_eq_getElem _ _ (by simpa using hk)]
  simp

theorem getD_map (l : List α) (f : α → β) (k : Nat) (d : β) (d' : α)
    (hk : k < l.length) : (l.map f).getD k d = f (l.getD k d') := by
  rw [List.getD_eq_getElem _ _ (by simpa using hk),
    List.getD_eq_getElem _ _ hk]
  simp

/-- C5: multi-line expansion replaces a row by exactly max-split-count
physical rows, physical row `k` taking each column's `k`-th split line or
the empty string when that column's cell has fewer lines; in particular
`["a\nb", "c"]` expands to `["a","c"]` and `["b",""]`. -/
theorem expandRow_per_spec :
    (∀ row : List GStr,
      (expandRow row).length = maxSplit (row.map splitCell) ∧
      ∀ k, k < (expandRow row).length → ∀ col, col < row.length →
        ((expandRow row).getD k []).getD col []
          = (splitCell (row.getD col [])).getD k []) ∧
    expandRow [gstr "a\nb", gstr "c"] = [[gstr "a", gstr "c"], [gstr "b", gstr ""]] := by
  refine ⟨fun row => ⟨by simp [expandRow], ?_⟩, by decide⟩
  intro k hk col hcol
  simp only [expandRow, List.length_map, List.length_range] at hk ⊢
  rw [getD_map_range _ _ _ _ hk,
    getD_map _ _ _ _ [] (by simpa using hcol),
    getD_map _ _ _ _ [] hcol]

/-- Witness for C5 at the documented example row, second physical row,
second column. -/
theorem expandRow_per_spec_witness :
    1 < (expandRow [gstr "a\nb", gstr "c"]).length ∧
    1 < ([gstr "a\nb", gstr "c"] : List GStr).length ∧
    ((expandRow [gstr "a\nb", gstr "c"]).getD 1 []).getD 1 []
      = (splitCell (([gstr "a\nb", gstr "c"] : List GStr).getD 1 [])).getD 1 [] :=
  ⟨by decide, by decide,
    (expandRow_per_spec.1 [gstr "a\nb", gstr "c"]).2 1 (by decide) 1 (by decide)⟩

/-- `splitCell` always produces at least one line. -/
theorem splitCell_ne_nil (cell : GStr) : splitCell cell ≠ [] := by
  unfold splitCell
  exact List.splitOnP_ne_nil _ _

theorem foldl_max_pos (t : List (List GStr)) (acc : Nat) (hacc : 0 < acc) :
    0 < t.foldl (fun m cells => max m cells.length) acc := by
  induction t generalizing acc with
  | nil => exact hacc
  | cons x xs ih => exact ih _ (lt_of_lt_of_le hacc (Nat.le_max_left _ _))

theorem maxSplit_pos (work : List (List GStr)) (hw : work ≠ [])
    (hall : ∀ cells ∈ work, cells ≠ []) : 0 < maxSplit work := by
  unfold maxSplit
  cases work with
  | nil => exact absurd rfl hw
  | cons c t =>
    have hc : 0 < c.length :=
      List.length_pos.mpr (hall c (List.mem_cons_self c t))
    rw [List.foldl_cons]
    exact foldl_max_pos t _ (by simpa using hc)

/-- A nonempty row expands to at least one physical row. -/
theorem expandRow_ne_nil (row : List GStr) (hrow : row ≠ []) :
    expandRow row ≠ [] := by
  unfold expandRow
  have : 0 < maxSplit (row.map splitCell) :=
    maxSplit_pos _ (by simpa using hrow)
      (by intro cells hc
          rcases List.mem_map.mp hc with ⟨cell, _, rfl⟩
          exact splitCell_ne_nil cell)
  simp only [ne_eq, List.map_eq_nil_iff, List.range_eq_nil]
  omega

/-- `wrapRow` preserves the cell count. -/
theorem wrapRow_length (opts : AlignOptions) (sz : Option Int)
    (r : List GStr) : (wrapRow opts sz r).length = r.length := by
  unfold wrapRow
  cases opts.Widths <;> simp

/-- With the separator flag set, a caller nil row leaves the accumulator
unchanged. -/
theorem preprocessStep_none_flag (opts : AlignOptions) (sz : Option Int)
    (hflag : opts.NilBetweenEveryRow = true) (acc : List Row) :
    preprocessStep opts sz acc none = acc := by
  simp [preprocessStep, hflag]

/-- With the separator flag set and a nonempty accumulator, a data row
appends a synthesized nil and its physical rows. -/
theorem preprocessStep_some_flag (opts : AlignOptions) (sz : Option Int)
    (hflag : opts.NilBetweenEveryRow = true) (acc : List Row)
    (hacc : acc ≠ []) (r : List GStr) :
    preprocessStep opts sz acc (some r)
      = acc ++ [none] ++ (expandRow (wrapRow opts sz r)).map some := by
  simp [preprocessStep, hflag, hacc]

/-- With the separator flag set and an empty accumulator, a data row
contributes only its physical rows. -/
theorem preprocessStep_some_nil (opts : AlignOptions) (sz : Option Int)
    (r : List GStr) :
    preprocessStep opts sz [] (some r)
      = (expandRow (wrapRow opts sz r)).map some := by
  simp [preprocessStep]

/-- With the separator flag set, once output exists each further data row
contributes a synthesized nil and its physical rows. -/
theorem preprocess_fold_nonempty (opts : AlignOptions) (sz : Option Int)
    (hflag : opts.NilBetweenEveryRow = true) (data : List Row) :
    ∀ acc : List Row, acc ≠ [] →
      data.foldl (preprocessStep opts sz) acc
      = acc ++ (data.filterMap id).flatMap
          (fun r => none :: (expandRow (wrapRow opts sz r)).map some) := by
  induction data with
  | nil => intro acc _; simp
  | cons row rest ih =>
    intro acc hacc
    cases row with
    | none =>
      rw [List.foldl_cons, preprocessStep_none_flag opts sz hflag,
        ih acc hacc]
      simp
    | some r =>
      rw [List.foldl_cons, preprocessStep_some_flag opts sz hflag acc hacc,
        ih _ (by simp)]
      simp

/-- C6 counterexample: with the flag set, a grid whose first data row has
no cells gets *no* synthesized separator before its second data row — the
rewritten grid contains no nil at all — because the synthesized nil is
skipped while no physical rows have been emitted yet. -/
theorem nilBetween_counterexample :
    preprocess [some [], some [gstr "x"]] { NilBetweenEveryRow := true } none
        = [some [gstr "x"]] ∧
    ¬ (none ∈ preprocess [some [], some [gstr "x"]]
        { NilBetweenEveryRow := true } none) := by
  refine ⟨by decide, by decide⟩

/-- C6 amended: with the flag set, provided every data row has at least
one cell, the rewritten grid is exactly the expanded data-row blocks
joined by single synthesized nils — one before every data row after the
first — and every caller-supplied nil row is dropped, so no position
carries both a caller marker and a synthesized one. -/
theorem nilBetween_per_spec (data : List Row) (opts : AlignOptions)
    (sz : Option Int) (hflag : opts.NilBetweenEveryRow = true)
    (hne : ∀ r ∈ data, r ≠ some []) :
    preprocess data opts sz
      = List.intercalate [none]
          ((data.filterMap id).map
            (fun r => (expandRow (wrapRow opts sz r)).map some)) := by
  unfold preprocess
  induction data with
  | nil => simp [List.intercalate]
  | cons row rest ih =>
    cases row with
    | none =>
      rw [List.foldl_cons, preprocessStep_none_flag opts sz hflag]
      exact ih (fun r hr => hne r (List.mem_cons_of_mem _ hr))
    | some r =>
      have hr : r ≠ [] := by
        intro h
        exact hne (some r) (List.mem_cons_self _ _) (by rw [h])
      have hblock : (expandRow (wrapRow opts sz r)).map some ≠ [] := by
        simp only [ne_eq, List.map_eq_nil_iff]
        exact expandRow_ne_nil _ (by
          intro h
          exact hr (by
            have := wrapRow_length opts sz r
            rw [h] at this
            exact List.length_eq_zero.mp this.symm))
      rw [List.foldl_cons, preprocessStep_some_nil opts sz r,
        preprocess_fold_nonempty opts sz hflag rest _ hblock]
      rw [show (List.filterMap id (some r :: rest)) = r :: List.filterMap id rest
          from rfl,
        List.map_cons, intercalate_singleton_cons, List.flatMap_map]

/-- Witness for C6 amended: a grid with a multi-line data row, a caller
nil (dropped), and another data row. -/
theorem nilBetween_per_spec_witness :
    ({ NilBetweenEveryRow := true } : AlignOptions).NilBetweenEveryRow = true ∧
    (∀ r ∈ ([some [gstr "a\nb", gstr "c"], none, some [gstr "d"]] : List Row),
      r ≠ some []) ∧
    preprocess [some [gstr "a\nb", gstr "c"], none, some [gstr "d"]]
        { NilBetweenEveryRow := true } none
      = List.intercalate [none]
          ((([some [gstr "a\nb", gstr "c"], none, some [gstr "d"]] :
              List Row).filterMap id).map
            (fun r =>
              (expandRow (wrapRow { NilBetweenEveryRow := true } none r)).map
                some)) :=
  ⟨rfl, by decide, nilBetween_per_spec _ _ _ rfl (by decide)⟩

/-! ### The wrap refinement (C8) -/

theorem intercalate_nil_eq (sep : List α) : List.intercalate sep [] = [] := by
  simp [List.intercalate]

theorem intercalate_single (sep : List α) (a : List α) :
    List.intercalate sep [a] = a := by
  simp [List.intercalate]

theorem intercalate_cons_of_ne_nil (sep a : List α) (l : List (List α))
    (hl : l ≠ []) :
    List.intercalate sep (a :: l) = a ++ sep ++ List.intercalate sep l := by
  cases l with
  | nil => exact absurd rfl hl
  | cons b t =>
    simp only [List.intercalate, List.intersperse_cons_cons, List.flatten]
    simp [List.append_assoc]

theorem specGreedy_ne_nil (width : Int) (i2 : GStr) (ws : List GStr)
    (cur : GStr) (curLen : Nat) : specGreedy width i2 ws cur curLen ≠ [] := by
  induction ws generalizing cur curLen with
  | nil => simp [specGreedy]
  | cons w rest ih =>
    unfold specGreedy
    split
    · simp
    · exact ih _ _

theorem wrapWords_cons_empty (width : Int) (i1 i2 : GStr) (ws : List GStr)
    (out : GStr) (lineLen : Nat) (start : Bool) :
    wrapWords width i1 i2 ([] :: ws) out lineLen start
      = wrapWords width i1 i2 ws out lineLen start := by
  simp [wrapWords]

theorem wrapWords_cons_start (width : Int) (i1 i2 : GStr) (w : GStr)
    (ws : List GStr) (out : GStr) (lineLen : Nat) (hw : w ≠ []) :
    wrapWords width i1 i2 (w :: ws) out lineLen true
      = wrapWords width i1 i2 ws (out ++ i1 ++ w) (byteLen i1 + visLen w)
          false := by
  simp [wrapWords, hw]

theorem wrapWords_cons_word (width : Int) (i1 i2 : GStr) (w : GStr)
    (ws : List GStr) (out : GStr) (lineLen : Nat) (hw : w ≠ []) :
    wrapWords width i1 i2 (w :: ws) out lineLen false
      = if (lineLen : Int) + 1 + (visLen w : Int) > width then
          wrapWords width i1 i2 ws (out ++ gstr "\n" ++ i2 ++ w)
            (byteLen i2 + visLen w) false
        else
          wrapWords width i1 i2 ws (out ++ gstr " " ++ w)
            (lineLen + 1 + visLen w) false := by
  simp [wrapWords, hw]

theorem specGreedy_cons (width : Int) (i2 : GStr) (w : GStr) (ws : List GStr)
    (cur : GStr) (curLen : Nat) :
    specGreedy width i2 (w :: ws) cur curLen
      = if (curLen : Int) + 1 + (visLen w : Int) > width then
          cur :: specGreedy width i2 ws (i2 ++ w) (byteLen i2 + visLen w)
        else specGreedy width i2 ws (cur ++ gstr " " ++ w)
          (curLen + 1 + visLen w) := rfl

theorem filter_ne_cons_empty (rest : List GStr) :
    List.filter (fun w => decide (w ≠ [])) ([] :: rest)
      = List.filter (fun w => decide (w ≠ [])) rest := by
  simp

theorem filter_ne_cons (w : GStr) (rest : List GStr) (hw : w ≠ []) :
    List.filter (fun w => decide (w ≠ [])) (w :: rest)
      = w :: List.filter (fun w => decide (w ≠ [])) rest := by
  simp [hw]

/-- The flat buffer of the word loop, started after the first word, is the
newline-join of the greedy lines, prefixed by the already-final part of
the buffer. -/
theorem wrapWords_run (width : Int) (i1 i2 : GStr) (ws : List GStr) :
    ∀ (pre cur : GStr) (curLen : Nat),
      wrapWords width i1 i2 ws (pre ++ cur) curLen false
        = pre ++ List.intercalate (gstr "\n")
            (specGreedy width i2 (ws.filter (fun w => w ≠ [])) cur curLen) := by
  induction ws with
  | nil =>
    intro pre cur curLen
    simp [wrapWords, specGreedy, intercalate_single]
  | cons w rest ih =>
    intro pre cur curLen
    by_cases hw : w = []
    · subst hw
      rw [wrapWords_cons_empty, filter_ne_cons_empty]
      exact ih pre cur curLen
    · rw [wrapWords_cons_word width i1 i2 w rest _ _ hw,
        filter_ne_cons w _ hw, specGreedy_cons]
      by_cases hbreak : (curLen : Int) + 1 + (visLen w : Int) > width
      · rw [if_pos hbreak, if_pos hbreak,
          intercalate_cons_of_ne_nil _ _ _ (specGreedy_ne_nil _ _ _ _ _)]
        have harr : (pre ++ cur) ++ gstr "\n" ++ i2 ++ w
            = (pre ++ cur ++ gstr "\n") ++ (i2 ++ w) := by
          simp [List.append_assoc]
        rw [harr, ih (pre ++ cur ++ gstr "\n") (i2 ++ w) _]
        simp [List.append_assoc]
      · rw [if_neg hbreak, if_neg hbreak]
        have harr : (pre ++ cur) ++ gstr " " ++ w
            = pre ++ (cur ++ gstr " " ++ w) := by
          simp [List.append_assoc]
        rw [harr, ih pre (cur ++ gstr " " ++ w) _]

/-- The word loop from its start state: skip empty words, seat the first
word after the first-line prefix, then run the greedy fill. -/
theorem wrapWords_start (width : Int) (i1 i2 : GStr) (ws : List GStr) :
    ∀ out : GStr,
      wrapWords width i1 i2 ws out 0 true
        = out ++ List.intercalate (gstr "\n")
            (match ws.filter (fun w => w ≠ []) with
             | [] => []
             | w0 :: rest =>
               specGreedy width i2 rest (i1 ++ w0) (byteLen i1 + visLen w0)) := by
  induction ws with
  | nil => intro out; simp [wrapWords, intercalate_nil_eq]
  | cons w rest ih =>
    intro out
    by_cases hw : w = []
    · subst hw
      rw [wrapWords_cons_empty, filter_ne_cons_empty]
      exact ih out
    · rw [wrapWords_cons_start width i1 i2 w rest out _ hw,
        filter_ne_cons w _ hw]
      have harr : out ++ i1 ++ w = out ++ (i1 ++ w) := by
        simp [List.append_assoc]
      rw [harr, wrapWords_run width i1 i2 rest out (i1 ++ w) _]

/-- One paragraph of the source wrap is the newline-join of the
spec-side greedy lines. -/
theorem wrapPar_eq_specLines (par : GStr) (width : Int) (i1 i2 : GStr) :
    wrapPar par width i1 i2
      = List.intercalate (gstr "\n") (wrapSpecLines width i1 i2 par) := by
  unfold wrapPar wrapSpecLines
  rw [wrapWords_start]
  simp

theorem flatten_map_append_sep (l : List GStr) (sep : GStr) (hl : l ≠ []) :
    (l.map (fun p => p ++ sep)).flatten = List.intercalate sep l ++ sep := by
  induction l with
  | nil => exact absurd rfl hl
  | cons a t ih =>
    cases t with
    | nil => simp [intercalate_single]
    | cons b u =>
      rw [List.map_cons, List.flatten_cons, ih (by simp),
        intercalate_cons_of_ne_nil sep a (b :: u) (by simp)]
      simp [List.append_assoc]

theorem dropWhile_all (p : α → Bool) (t : List α) (h : ∀ c ∈ t, p c) :
    t.dropWhile p = [] := by
  induction t with
  | nil => rfl
  | cons c u ih =>
    rw [List.dropWhile_cons, if_pos (h c (List.mem_cons_self _ _))]
    exact ih (fun x hx => h x (List.mem_cons_of_mem _ hx))

theorem rdropWhile_append_all (p : α → Bool) (x t : List α)
    (h : ∀ c ∈ t, p c) : (x ++ t).rdropWhile p = x.rdropWhile p := by
  unfold List.rdropWhile
  rw [List.reverse_append, List.dropWhile_append,
    dropWhile_all p t.reverse (fun c hc => h c (List.mem_reverse.mp hc))]
  simp

/-- Appending newline characters does not change the trimmed result. -/
theorem trimNL_append_newlines (s t : GStr) (h : ∀ c ∈ t, c = '\n') :
    trimNL (s ++ t) = trimNL s := by
  unfold trimNL
  rw [List.dropWhile_append]
  by_cases hs : (s.dropWhile (fun c => c = '\n')).isEmpty
  · rw [if_pos hs,
      dropWhile_all _ t (fun c hc => by simpa using h c hc),
      List.isEmpty_iff.mp hs]
  · rw [if_neg hs,
      rdropWhile_append_all _ _ t (fun c hc => by simpa using h c hc)]

theorem goSplitSeqF_ne_nil (sep : GStr) (fuel : Nat) (s : GStr) :
    goSplitSeqF sep fuel s ≠ [] := by
  cases fuel with
  | zero => simp [goSplitSeqF]
  | succ n =>
    unfold goSplitSeqF
    cases findSeq? sep s <;> simp

theorem goSplitSeq_ne_nil (sep s : GStr) : goSplitSeq sep s ≠ [] := by
  unfold goSplitSeq
  split
  · simp
  · exact goSplitSeqF_ne_nil _ _ _

/-- C8: `Wrap` implements the spec's wrapping contract: after the width
resolution, paragraphs are reflowed and greedily filled — a word starts a
new line exactly when one space plus its visible length would overflow the
width — the first word is preceded by the first-line prefix and every
later line by the continuation prefix, whitespace runs collapse (empty
words are skipped), and the empty input yields empty output with no
prefixes. -/
theorem wrap_refines_spec (text : GStr) (width : Int) (i1 i2 : GStr)
    (sz : Option Int) :
    Wrap text width i1 i2 sz = wrapSpec text (effWidth width sz) i1 i2 ∧
    Wrap [] width i1 i2 sz = [] := by
  constructor
  · by_cases htext : text = []
    · subst htext
      simp [Wrap, wrap, wrapSpec, trimNL]
    · unfold Wrap wrap wrapSpec
      rw [if_neg htext, if_neg htext]
      rw [show ((goSplitSeq (gstr "\n\n") (goReplace (gstr "\r\n") (gstr "\n") text)).map
            (fun par => wrapPar par (effWidth width sz) i1 i2 ++ gstr "\n\n"))
          = (((goSplitSeq (gstr "\n\n") (goReplace (gstr "\r\n") (gstr "\n") text)).map
            (fun par => wrapPar par (effWidth width sz) i1 i2)).map
            (fun p => p ++ gstr "\n\n")) by rw [List.map_map]; rfl]
      rw [flatten_map_append_sep _ _ (by
        simp only [ne_eq, List.map_eq_nil_iff]
        exact goSplitSeq_ne_nil _ _)]
      rw [trimNL_append_newlines _ _ (by decide)]
      congr 1
      congr 1
      apply List.map_congr_left
      intro par _
      exact wrapPar_eq_specLines par _ i1 i2
  · simp [Wrap, wrap, trimNL]

/-- C8 counterexample: the code seats the first-line prefix before the
first word of *every* paragraph (the `start` flag resets per paragraph),
so the third output line of a two-paragraph text carries "A", although the
claim demands the continuation prefix "B" on every line after the first. -/
theorem wrap_prefix_counterexample :
    Wrap (gstr "aa bb\n\ncc") 10 (gstr "A") (gstr "B") none
        = gstr "Aaa bb\n\nAcc" ∧
    (List.splitOn '\n'
        (Wrap (gstr "aa bb\n\ncc") 10 (gstr "A") (gstr "B") none)).getD 2 []
      ≠ gstr "B" ++ gstr "cc" := by
  refine ⟨by decide, by decide⟩

/-! ### Words are never broken (C9) -/

theorem visLoopF_le (fuel : Nat) :
    ∀ (wordLen : Nat) (scan : GStr), visLoopF fuel wordLen scan ≤ wordLen := by
  induction fuel with
  | zero => intro wordLen scan; simp [visLoopF]
  | succ n ih =>
    intro wordLen scan
    unfold visLoopF
    split
    · split
      · exact Nat.le_refl _
      · split
        · exact Nat.le_refl _
        · exact le_trans (ih _ _) (Nat.sub_le _ _)
    · exact Nat.le_refl _

theorem visLen_le_byteLen (w : GStr) : visLen w ≤ byteLen w :=
  visLoopF_le w.length (byteLen w) w

theorem byteLen_append (a b : GStr) :
    byteLen (a ++ b) = byteLen a + byteLen b := by
  simp [byteLen]

theorem single_isPrefixOf_iff (c : Char) (s : GStr) :
    ([c] : GStr).isPrefixOf s = true ↔ ∃ t, s = c :: t := by
  cases s with
  | nil => simp [List.isPrefixOf]
  | cons x t =>
    constructor
    · intro h
      simp [List.isPrefixOf] at h
      exact ⟨t, by rw [h]⟩
    · rintro ⟨u, hu⟩
      cases hu
      simp [List.isPrefixOf]

theorem noNL_goReplaceF (fuel : Nat) :
    ∀ s : GStr, s.length ≤ fuel →
      ∀ c ∈ goReplaceF (gstr "\n") (gstr " ") fuel s, ¬ c = '\n' := by
  induction fuel with
  | zero =>
    intro s hs c hc
    rw [List.length_eq_zero.mp (Nat.le_zero.mp hs)] at hc
    simp [goReplaceF] at hc
  | succ n ih =>
    intro s hs c hc
    unfold goReplaceF at hc
    by_cases hp : (gstr "\n").isPrefixOf s
    · rw [if_pos hp] at hc
      rcases (single_isPrefixOf_iff '\n' s).mp hp with ⟨t, rfl⟩
      simp only [gstr, List.cons_append, List.nil_append] at hc
      rcases List.mem_cons.mp hc with h | h
      · intro hcon; rw [h] at hcon; exact absurd hcon (by decide)
      · exact ih t (by simpa using Nat.le_of_succ_le_succ (by simpa using hs))
          c (by simpa using h)
    · rw [if_neg hp] at hc
      cases s with
      | nil => simp at hc
      | cons x t =>
        rcases List.mem_cons.mp hc with h | h
        · intro hcon
          apply hp
          rw [h] at hcon
          rw [hcon]
          simp [gstr, List.isPrefixOf]
        · exact ih t (by simpa using hs) c h

theorem noNL_goReplace (s : GStr) :
    ∀ c ∈ goReplace (gstr "\n") (gstr " ") s, ¬ c = '\n' := by
  intro c hc
  unfold goReplace at hc
  rw [if_neg (by decide)] at hc
  exact noNL_goReplaceF s.length s (Nat.le_refl _) c hc

theorem mem_intersperse_of_mem (sep : α) (l : List α) (x : α) (hx : x ∈ l) :
    x ∈ l.intersperse sep := by
  induction l with
  | nil => simp at hx
  | cons a t ih =>
    cases t with
    | nil => simpa using hx
    | cons b u =>
      rw [List.intersperse_cons_cons]
      rcases List.mem_cons.mp hx with h | h
      · rw [h]; exact List.mem_cons_self _ _
      · exact List.mem_cons_of_mem _ (List.mem_cons_of_mem _ (ih h))

/-- A member of the list occurs inside the intercalation. -/
theorem mem_intercalate_inner (sep : List α) (xs : List (List α))
    (x : List α) (hx : x ∈ xs) :
    ∃ p q, p ++ x ++ q = List.intercalate sep xs := by
  induction xs with
  | nil => simp at hx
  | cons a t ih =>
    rcases List.mem_cons.mp hx with h | h
    · subst h
      cases t with
      | nil => exact ⟨[], [], by simp [intercalate_single]⟩
      | cons b u =>
        exact ⟨[], sep ++ List.intercalate sep (b :: u), by
          rw [intercalate_cons_of_ne_nil sep x (b :: u) (by simp)]
          simp [List.append_assoc]⟩
    · have ht : t ≠ [] := by rintro rfl; simp at h
      rcases ih h with ⟨p, q, hpq⟩
      exact ⟨a ++ sep ++ p, q, by
        rw [intercalate_cons_of_ne_nil sep a t ht, ← hpq]
        simp [List.append_assoc]⟩

/-- Characters of a `splitOn` piece come from the split list. -/
theorem mem_splitOn_subset (a : α) [DecidableEq α] (l : List α)
    (word : List α) (hw : word ∈ l.splitOn a) (c : α) (hc : c ∈ word) :
    c ∈ l := by
  rcases mem_intercalate_inner [a] (l.splitOn a) word hw with ⟨p, q, hpq⟩
  rw [List.intercalate_splitOn] at hpq
  rw [← hpq]
  simp only [List.mem_append]
  exact Or.inl (Or.inr hc)

theorem splitOn_cons_self (c : Char) (t : GStr) :
    List.splitOn c (c :: t) = [] :: List.splitOn c t := by
  simp [List.splitOn, List.splitOnP_cons]

theorem splitOn_cons_ne (c x : Char) (t : GStr) (hx : ¬ x = c) :
    List.splitOn c (x :: t) = (List.splitOn c t).modifyHead (x :: ·) := by
  simp [List.splitOn, List.splitOnP_cons, hx]

/-- A newline-free leading run of `s` stays a leading run of the first
`splitOn` piece. -/
theorem splitOn_head_run (word : GStr) :
    ∀ (s rest : GStr), word ++ rest = s → (∀ c ∈ word, ¬ c = '\n') →
      ∃ h t q, List.splitOn '\n' s = h :: t ∧ word ++ q = h := by
  induction word with
  | nil =>
    intro s rest _ _
    rcases List.exists_cons_of_ne_nil (List.splitOnP_ne_nil _ s) with ⟨h, t, ht⟩
    exact ⟨h, t, h, ht, rfl⟩
  | cons c w ih =>
    intro s rest hs hnl
    have hc : ¬ c = '\n' := hnl c (List.mem_cons_self _ _)
    rcases ih (w ++ rest) rest rfl
        (fun x hx => hnl x (List.mem_cons_of_mem _ hx)) with
      ⟨h, t, q, hsplit, hh⟩
    subst hs
    rw [show (c :: w) ++ rest = c :: (w ++ rest) from rfl,
      splitOn_cons_ne '\n' c _ hc, hsplit]
    exact ⟨c :: h, t, q, rfl, by rw [← hh]; rfl⟩

/-- A nonempty newline-free inner run of `s` lies inside a single
`splitOn '\n'` piece. -/
theorem splitOn_piece_of_inner (s : GStr) :
    ∀ (word pre post : GStr), word ≠ [] → (∀ c ∈ word, ¬ c = '\n') →
      pre ++ word ++ post = s →
      ∃ piece ∈ List.splitOn '\n' s, ∃ p q, p ++ word ++ q = piece := by
  induction s with
  | nil =>
    intro word pre post hne _ hsplit
    exact absurd (List.append_eq_nil.mp
      (List.append_eq_nil.mp hsplit).1).2 hne
  | cons x s' ih =>
    intro word pre post hne hnl hsplit
    cases pre with
    | nil =>
      rcases splitOn_head_run word (x :: s') post (by simpa using hsplit)
          hnl with ⟨h, t, q, hsp, hh⟩
      exact ⟨h, by rw [hsp]; exact List.mem_cons_self _ _, [], q, by
        rw [← hh]; rfl⟩
    | cons y pre' =>
      have hsplit' : pre' ++ word ++ post = s' := by
        have := hsplit
        rw [show (y :: pre') ++ word ++ post = y :: (pre' ++ word ++ post)
            from rfl] at this
        exact (List.cons_eq_cons.mp this).2
      have hy : y = x := (List.cons_eq_cons.mp (by
        rw [show (y :: pre') ++ word ++ post = y :: (pre' ++ word ++ post)
            from rfl] at hsplit
        exact hsplit)).1
      rcases ih word pre' post hne hnl hsplit' with ⟨piece, hmem, p, q, hpq⟩
      by_cases hx : x = '\n'
      · subst hx
        rw [splitOn_cons_self]
        exact ⟨piece, List.mem_cons_of_mem _ hmem, p, q, hpq⟩
      · rw [splitOn_cons_ne '\n' x s' hx]
        rcases List.exists_cons_of_ne_nil
            (show List.splitOn '\n' s' ≠ [] from List.splitOnP_ne_nil _ s')
          with ⟨h, t, hsp⟩
        rw [hsp] at hmem ⊢
        simp only [List.modifyHead_cons]
        rcases List.mem_cons.mp hmem with hph | hpt
        · subst hph
          exact ⟨x :: piece, List.mem_cons_self _ _, x :: p, q, by
            rw [← hpq]; rfl⟩
        · exact ⟨piece, List.mem_cons_of_mem _ hpt, p, q, hpq⟩

/-- Inner runs survive `dropWhile` when none of their characters satisfy
the predicate. -/
theorem inner_dropWhile (p : Char → Bool) (word : GStr) (hne : word ≠ [])
    (hw : ∀ c ∈ word, ¬ p c) :
    ∀ l : List Char, (∃ pr q, pr ++ word ++ q = l) →
      ∃ pr q, pr ++ word ++ q = l.dropWhile p := by
  intro l
  induction l with
  | nil =>
    rintro ⟨pr, q, hl⟩
    exact absurd (List.append_eq_nil.mp (List.append_eq_nil.mp hl).1).2 hne
  | cons c t ih =>
    rintro ⟨pr, q, hl⟩
    rw [List.dropWhile_cons]
    by_cases hp : p c
    · rw [if_pos hp]
      cases pr with
      | nil =>
        exfalso
        cases word with
        | nil => exact hne rfl
        | cons w0 w' =>
          have : w0 = c := (List.cons_eq_cons.mp (by simpa using hl)).1
          exact hw w0 (List.mem_cons_self _ _) (by rw [this]; exact hp)
      | cons z pr' =>
        apply ih
        refine ⟨pr', q, ?_⟩
        have : z :: (pr' ++ word ++ q) = c :: t := by simpa using hl
        exact (List.cons_eq_cons.mp this).2
    · rw [if_neg hp]
      exact ⟨pr, q, hl⟩

theorem inner_reverse (word : GStr) (l : List Char)
    (h : ∃ pr q, pr ++ word ++ q = l) :
    ∃ pr q, pr ++ word.reverse ++ q = l.reverse := by
  rcases h with ⟨pr, q, hl⟩
  exact ⟨q.reverse, pr.reverse, by rw [← hl]; simp⟩

theorem inner_rdropWhile (p : Char → Bool) (word : GStr) (hne : word ≠ [])
    (hw : ∀ c ∈ word, ¬ p c) (l : List Char)
    (h : ∃ pr q, pr ++ word ++ q = l) :
    ∃ pr q, pr ++ word ++ q = l.rdropWhile p := by
  unfold List.rdropWhile
  have h1 := inner_reverse word l h
  have h2 := inner_dropWhile p word.reverse
    (by simpa using hne)
    (fun c hc => hw c (List.mem_reverse.mp hc)) l.reverse h1
  have h3 := inner_reverse word.reverse (l.reverse.dropWhile p) h2
  simpa using h3

/-- Inner runs survive the outer-newline trim. -/
theorem inner_trimNL (word : GStr) (hne : word ≠ [])
    (hnl : ∀ c ∈ word, ¬ c = '\n') (l : List Char)
    (h : ∃ pr q, pr ++ word ++ q = l) :
    ∃ pr q, pr ++ word ++ q = trimNL l := by
  unfold trimNL
  exact inner_rdropWhile _ word hne (by simpa using hnl) _
    (inner_dropWhile _ word hne (by simpa using hnl) l h)

/-- The head line of the greedy fill extends the seeded current line, and
the extension consists of spaces and characters of the remaining words. -/
theorem specGreedy_head (width : Int) (i2 : GStr) (ws : List GStr) :
    ∀ (cur : GStr) (curLen : Nat),
      ∃ t rest, specGreedy width i2 ws cur curLen = (cur ++ t) :: rest ∧
        ∀ c ∈ t, c = ' ' ∨ ∃ w ∈ ws, c ∈ w := by
  induction ws with
  | nil =>
    intro cur curLen
    exact ⟨[], [], by simp [specGreedy], by simp⟩
  | cons w ws' ih =>
    intro cur curLen
    rw [specGreedy_cons]
    by_cases hbreak : (curLen : Int) + 1 + (visLen w : Int) > width
    · rw [if_pos hbreak]
      exact ⟨[], specGreedy width i2 ws' (i2 ++ w) (byteLen i2 + visLen w),
        by simp, by simp⟩
    · rw [if_neg hbreak]
      rcases ih (cur ++ gstr " " ++ w) (curLen + 1 + visLen w) with
        ⟨t, rest, heq, hchars⟩
      refine ⟨gstr " " ++ w ++ t, rest, by rw [heq]; simp [List.append_assoc], ?_⟩
      intro c hc
      simp only [List.mem_append] at hc
      rcases hc with (hc | hc) | hc
      · exact Or.inl (by simpa [gstr] using hc)
      · exact Or.inr ⟨w, List.mem_cons_self _ _, hc⟩
      · rcases hchars c hc with h | ⟨w', hw', hcw⟩
        · exact Or.inl h
        · exact Or.inr ⟨w', List.mem_cons_of_mem _ hw', hcw⟩

/-- Every processed word lands, whole, inside one greedy line. -/
theorem specGreedy_mem_word (width : Int) (i2 : GStr) (ws : List GStr) :
    ∀ (cur : GStr) (curLen : Nat) (w : GStr), w ∈ ws →
      ∃ line ∈ specGreedy width i2 ws cur curLen, ∃ p q, p ++ w ++ q = line := by
  induction ws with
  | nil => intro cur curLen w hw; simp at hw
  | cons w0 ws' ih =>
    intro cur curLen w hw
    rw [specGreedy_cons]
    rcases List.mem_cons.mp hw with rfl | hw'
    · by_cases hbreak : (curLen : Int) + 1 + (visLen w : Int) > width
      · rw [if_pos hbreak]
        rcases specGreedy_head width i2 ws' (i2 ++ w) (byteLen i2 + visLen w)
          with ⟨t, rest, heq, _⟩
        refine ⟨(i2 ++ w) ++ t, ?_, i2, t, by simp [List.append_assoc]⟩
        rw [heq]
        exact List.mem_cons_of_mem _ (List.mem_cons_self _ _)
      · rw [if_neg hbreak]
        rcases specGreedy_head width i2 ws' (cur ++ gstr " " ++ w)
          (curLen + 1 + visLen w) with ⟨t, rest, heq, _⟩
        refine ⟨(cur ++ gstr " " ++ w) ++ t, ?_, cur ++ gstr " ", t,
          by simp [List.append_assoc]⟩
        rw [heq]
        exact List.mem_cons_self _ _
    · by_cases hbreak : (curLen : Int) + 1 + (visLen w0 : Int) > width
      · rw [if_pos hbreak]
        rcases ih (i2 ++ w0) (byteLen i2 + visLen w0) w hw' with
          ⟨line, hline, p, q, hpq⟩
        exact ⟨line, List.mem_cons_of_mem _ hline, p, q, hpq⟩
      · rw [if_neg hbreak]
        exact ih (cur ++ gstr " " ++ w0) (curLen + 1 + visLen w0) w hw'

/-- The nonempty space-delimited runs of a reflowed paragraph are nonempty
and newline-free. -/
theorem filtered_word_props (par : GStr) :
    ∀ w ∈ (List.splitOn ' ' (goReplace (gstr "\n") (gstr " ") par)).filter
        (fun w => w ≠ []),
      w ≠ [] ∧ ∀ c ∈ w, ¬ c = '\n' := by
  intro w hw
  have hsp := List.mem_filter.mp hw
  refine ⟨by simpa using hsp.2, ?_⟩
  intro c hc
  exact noNL_goReplace par c (mem_splitOn_subset ' ' _ w hsp.1 c hc)

/-- Every filtered word of a paragraph sits whole inside one of the
paragraph's greedy lines. -/
theorem wrapSpecLines_mem_word (width : Int) (i1 i2 : GStr) (par : GStr)
    (word : GStr)
    (hw : word ∈ (List.splitOn ' ' (goReplace (gstr "\n") (gstr " ") par)).filter
        (fun w => w ≠ [])) :
    ∃ line ∈ wrapSpecLines width i1 i2 par, ∃ p q, p ++ word ++ q = line := by
  unfold wrapSpecLines
  cases hfil : (List.splitOn ' ' (goReplace (gstr "\n") (gstr " ") par)).filter
      (fun w => w ≠ []) with
  | nil => rw [hfil] at hw; simp at hw
  | cons w0 ws =>
    rw [hfil] at hw
    rcases List.mem_cons.mp hw with rfl | hw'
    · rcases specGreedy_head width i2 ws (i1 ++ word) (byteLen i1 + visLen word)
        with ⟨t, rest, heq, _⟩
      refine ⟨(i1 ++ word) ++ t, ?_, i1, t, by simp [List.append_assoc]⟩
      show (i1 ++ word) ++ t
        ∈ specGreedy width i2 ws (i1 ++ word) (byteLen i1 + visLen word)
      rw [heq]
      exact List.mem_cons_self _ _
    · exact specGreedy_mem_word width i2 ws (i1 ++ w0)
        (byteLen i1 + visLen w0) word hw'

/-- A nonempty newline-free run inside some greedy line of some paragraph
sits whole inside one line of the final `Wrap` output. -/
theorem inner_of_wrap (text : GStr) (width : Int) (i1 i2 : GStr)
    (sz : Option Int) (word : GStr) (hne : word ≠ [])
    (hnl : ∀ c ∈ word, ¬ c = '\n') (par : GStr)
    (hpar : par ∈ goSplitSeq (gstr "\n\n") (goReplace (gstr "\r\n") (gstr "\n") text))
    (line : GStr)
    (hline : line ∈ wrapSpecLines (effWidth width sz) i1 i2 par)
    (hinner : ∃ p q, p ++ word ++ q = line) (htext : text ≠ []) :
    ∃ piece ∈ List.splitOn '\n' (Wrap text width i1 i2 sz),
      ∃ p q, p ++ word ++ q = piece := by
  rcases hinner with ⟨p1, q1, h1⟩
  rcases mem_intercalate_inner (gstr "\n")
    (wrapSpecLines (effWidth width sz) i1 i2 par) line hline with ⟨p2, q2, h2⟩
  have hflatmem :
      List.intercalate (gstr "\n") (wrapSpecLines (effWidth width sz) i1 i2 par)
        ∈ (goSplitSeq (gstr "\n\n") (goReplace (gstr "\r\n") (gstr "\n") text)).map
            (fun par =>
              List.intercalate (gstr "\n")
                (wrapSpecLines (effWidth width sz) i1 i2 par)) :=
    List.mem_map_of_mem _ hpar
  rcases mem_intercalate_inner (gstr "\n\n") _ _ hflatmem with ⟨p3, q3, h3⟩
  have hinnerJ : ∃ pr q, pr ++ word ++ q
      = List.intercalate (gstr "\n\n")
          ((goSplitSeq (gstr "\n\n") (goReplace (gstr "\r\n") (gstr "\n") text)).map
            (fun par =>
              List.intercalate (gstr "\n")
                (wrapSpecLines (effWidth width sz) i1 i2 par))) := by
    refine ⟨p3 ++ (p2 ++ p1), (q1 ++ q2) ++ q3, ?_⟩
    rw [← h3, ← h2, ← h1]
    simp [List.append_assoc]
  have htr := inner_trimNL word hne hnl _ hinnerJ
  rcases htr with ⟨pr, q, hq⟩
  rw [(wrap_refines_spec text width i1 i2 sz).1]
  unfold wrapSpec
  rw [if_neg htext]
  exact splitOn_piece_of_inner _ word pr q hne hnl hq

/-- The head of a `flatMap` comes from the first member with a nonempty
image. -/
theorem flatMap_head (l : List α) (f : α → List β) (b : β) (bs : List β)
    (h : l.flatMap f = b :: bs) : ∃ x ∈ l, ∃ r, f x = b :: r := by
  induction l with
  | nil => simp at h
  | cons a t ih =>
    rw [List.flatMap_cons] at h
    cases hfa : f a with
    | nil =>
      rw [hfa, List.nil_append] at h
      rcases ih h with ⟨x, hx, r, hr⟩
      exact ⟨x, List.mem_cons_of_mem _ hx, r, hr⟩
    | cons c cs =>
      rw [hfa] at h
      have hc : c = b := (List.cons_eq_cons.mp (by simpa using h)).1
      exact ⟨a, List.mem_cons_self _ _, cs, by rw [hfa, hc]⟩

/-- C9: `wrap` never breaks inside a word. Every maximal whitespace-free
run of the input appears contiguously within a single output line; when a
word's visible length exceeds the effective width, the output has a line
whose byte length exceeds that width; and when the first word plus the
(newline-free) first-line prefix exceeds it, likewise. -/
theorem wrap_words_unbroken (text : GStr) (width : Int) (i1 i2 : GStr)
    (sz : Option Int) :
    (∀ word ∈ wordsOf text,
      ∃ line ∈ List.splitOn '\n' (Wrap text width i1 i2 sz),
        ∃ p q, p ++ word ++ q = line) ∧
    (∀ word ∈ wordsOf text, effWidth width sz < (visLen word : Int) →
      ∃ line ∈ List.splitOn '\n' (Wrap text width i1 i2 sz),
        effWidth width sz < (byteLen line : Int)) ∧
    (∀ w0 rest, wordsOf text = w0 :: rest → (∀ c ∈ i1, ¬ c = '\n') →
      effWidth width sz < (byteLen i1 : Int) + (visLen w0 : Int) →
      ∃ line ∈ List.splitOn '\n' (Wrap text width i1 i2 sz),
        effWidth width sz < (byteLen line : Int)) := by
  have hmain : ∀ word ∈ wordsOf text,
      ∃ line ∈ List.splitOn '\n' (Wrap text width i1 i2 sz),
        ∃ p q, p ++ word ++ q = line := by
    intro word hmem
    have htext : text ≠ [] := by
      rintro rfl
      rw [show wordsOf ([] : GStr) = [] from by decide] at hmem
      simp at hmem
    unfold wordsOf at hmem
    rcases List.mem_flatMap.mp hmem with ⟨par, hpar, hwfil⟩
    rcases filtered_word_props par word hwfil with ⟨hne, hnl⟩
    rcases wrapSpecLines_mem_word (effWidth width sz) i1 i2 par word hwfil
      with ⟨line, hline, p, q, hpq⟩
    exact inner_of_wrap text width i1 i2 sz word hne hnl par hpar line hline
      ⟨p, q, hpq⟩ htext
  refine ⟨hmain, ?_, ?_⟩
  · intro word hmem hlong
    rcases hmain word hmem with ⟨line, hline, p, q, hpq⟩
    refine ⟨line, hline, ?_⟩
    have hb : byteLen word ≤ byteLen line := by
      rw [← hpq, byteLen_append, byteLen_append]
      omega
    have hv := visLen_le_byteLen word
    calc effWidth width sz < (visLen word : Int) := hlong
      _ ≤ (byteLen line : Int) := by exact_mod_cast le_trans hv hb
  · intro w0 rest hwords hi1 hlong
    have htext : text ≠ [] := by
      rintro rfl
      rw [show wordsOf ([] : GStr) = [] from by decide] at hwords
      simp at hwords
    unfold wordsOf at hwords
    rcases flatMap_head _ _ _ _ hwords with ⟨par, hpar, ws', hfil⟩
    have hw0 : w0 ∈ (List.splitOn ' ' (goReplace (gstr "\n") (gstr " ") par)).filter
        (fun w => w ≠ []) := by rw [hfil]; exact List.mem_cons_self _ _
    rcases filtered_word_props par w0 hw0 with ⟨hne0, hnl0⟩
    rcases specGreedy_head (effWidth width sz) i2 ws' (i1 ++ w0)
      (byteLen i1 + visLen w0) with ⟨t, rest', heq, hchars⟩
    have hline : (i1 ++ w0) ++ t
        ∈ wrapSpecLines (effWidth width sz) i1 i2 par := by
      unfold wrapSpecLines
      rw [hfil]
      show (i1 ++ w0) ++ t ∈ specGreedy (effWidth width sz) i2 ws' (i1 ++ w0)
        (byteLen i1 + visLen w0)
      rw [heq]
      exact List.mem_cons_self _ _
    have hlinene : (i1 ++ w0) ++ t ≠ [] := by
      simp only [ne_eq, List.append_eq_nil]
      rintro ⟨⟨-, h0⟩, -⟩
      exact hne0 h0
    have hlinenl : ∀ c ∈ (i1 ++ w0) ++ t, ¬ c = '\n' := by
      intro c hc
      simp only [List.mem_append] at hc
      rcases hc with (hc | hc) | hc
      · exact hi1 c hc
      · exact hnl0 c hc
      · rcases hchars c hc with h | ⟨w, hwmem, hcw⟩
        · rw [h]; decide
        · have hwfil : w ∈ (List.splitOn ' '
              (goReplace (gstr "\n") (gstr " ") par)).filter (fun w => w ≠ []) := by
            rw [hfil]
            exact List.mem_cons_of_mem _ hwmem
          exact (filtered_word_props par w hwfil).2 c hcw
    rcases inner_of_wrap text width i1 i2 sz ((i1 ++ w0) ++ t) hlinene hlinenl
        par hpar ((i1 ++ w0) ++ t) hline ⟨[], [], by simp⟩ htext
      with ⟨piece, hpiece, p, q, hpq⟩
    refine ⟨piece, hpiece, ?_⟩
    have hb : byteLen i1 + visLen w0 ≤ byteLen piece := by
      rw [← hpq, byteLen_append, byteLen_append, byteLen_append,
        byteLen_append]
      have := visLen_le_byteLen w0
      omega
    calc effWidth width sz < (byteLen i1 : Int) + (visLen w0 : Int) := hlong
      _ ≤ (byteLen piece : Int) := by exact_mod_cast hb

/-- Witness for C9 at the test sentence: the word "sentence." appears
whole inside one output line. -/
theorem wrap_words_unbroken_witness :
    (gstr "sentence." ∈ wordsOf (gstr "Just a test sentence.")) ∧
    (∃ line ∈ List.splitOn '\n'
        (Wrap (gstr "Just a test sentence.") 10 [] [] none),
      ∃ p q, p ++ gstr "sentence." ++ q = line) :=
  ⟨by decide,
    (wrap_words_unbroken (gstr "Just a test sentence.") 10 [] [] none).1
      (gstr "sentence.") (by decide)⟩

/-! ### Column widths (C1) -/

theorem runeCount_le_byteLen (s : GStr) : runeCount s ≤ byteLen s := by
  induction s with
  | nil => simp [runeCount, byteLen]
  | cons c t ih =>
    have hc := c.utf8Size_pos
    simp only [runeCount, byteLen, List.map_cons, List.sum_cons,
      List.length_cons] at ih ⊢
    omega

theorem extendWF_length (r : List GStr) :
    ∀ (fuel : Nat) (ws : List Nat), r.length - ws.length ≤ fuel →
      (extendWF fuel ws r).length = max ws.length r.length := by
  intro fuel
  induction fuel with
  | zero =>
    intro ws h
    unfold extendWF
    omega
  | succ n ih =>
    intro ws h
    unfold extendWF
    by_cases hgt : r.length > ws.length
    · rw [if_pos hgt, ih _ (by simp; omega)]
      simp
      omega
    · rw [if_neg hgt]
      omega

theorem extendWF_getD (r : List GStr) :
    ∀ (fuel : Nat) (ws : List Nat) (c : Nat), r.length - ws.length ≤ fuel →
      (extendWF fuel ws r).getD c 0
        = if c < ws.length then ws.getD c 0
          else if c < r.length then byteLen (r.getD c []) else 0 := by
  intro fuel
  induction fuel with
  | zero =>
    intro ws c h
    unfold extendWF
    split
    · rfl
    · next hcw =>
      rw [if_neg (by omega), List.getD_eq_default _ _ (by omega)]
  | succ n ih =>
    intro ws c h
    unfold extendWF
    by_cases hgt : r.length > ws.length
    · rw [if_pos hgt, ih _ c (by simp; omega)]
      by_cases hcw : c < ws.length
      · rw [if_pos (by simp; omega), if_pos hcw,
          List.getD_append _ _ _ _ hcw]
      · by_cases hce : c = ws.length
        · subst hce
          rw [if_pos (by simp), if_neg (by omega), if_pos (by omega),
            List.getD_append_right _ _ _ _ (Nat.le_refl _)]
          simp
        · rw [if_neg (by simp; omega), if_neg hcw]
    · rw [if_neg hgt]
      split
      · rfl
      · next hcw =>
        rw [if_neg (by omega), List.getD_eq_default _ _ (by omega)]

theorem bumpW_length :
    ∀ (r : List GStr) (ws : List Nat), r.length ≤ ws.length →
      (bumpW ws r).length = ws.length := by
  intro r
  induction r with
  | nil => intro ws _; cases ws <;> rfl
  | cons v vs ih =>
    intro ws h
    cases ws with
    | nil => simp at h
    | cons w ws' =>
      show (max w (runeCount v) :: bumpW ws' vs).length = ws'.length + 1
      rw [List.length_cons, ih ws' (by simpa using h)]

theorem bumpW_getD :
    ∀ (r : List GStr) (ws : List Nat) (c : Nat), r.length ≤ ws.length →
      (bumpW ws r).getD c 0
        = if c < r.length then
            max (ws.getD c 0) (runeCount (r.getD c []))
          else ws.getD c 0 := by
  intro r
  induction r with
  | nil =>
    intro ws c _
    cases ws <;> simp [bumpW]
  | cons v vs ih =>
    intro ws c h
    cases ws with
    | nil => simp at h
    | cons w ws' =>
      show (max w (runeCount v) :: bumpW ws' vs).getD c 0 = _
      cases c with
      | zero => simp
      | succ c' =>
        rw [List.getD_cons_succ, ih ws' c' (by simpa using h)]
        by_cases hc : c' < vs.length
        · rw [if_pos hc, if_pos (by simpa using Nat.succ_lt_succ hc)]
          simp
        · rw [if_neg hc, if_neg (by simp; omega)]
          simp

theorem combine_length (ws : List Nat) (r : List GStr) :
    (widthsStep ws (some r)).length = max ws.length r.length := by
  show (bumpW (extendW ws r) r).length = _
  unfold extendW
  rw [bumpW_length r _ (by
      rw [extendWF_length r r.length ws (by omega)]
      omega),
    extendWF_length r r.length ws (by omega)]

theorem combine_getD (ws : List Nat) (r : List GStr)
    (hA : ∀ cell ∈ r, byteLen cell = runeCount cell) (c : Nat) :
    (widthsStep ws (some r)).getD c 0
      = max (ws.getD c 0) (runeCount (r.getD c [])) := by
  show (bumpW (extendW ws r) r).getD c 0 = _
  unfold extendW
  have hlen : (extendWF r.length ws r).length = max ws.length r.length :=
    extendWF_length r r.length ws (by omega)
  rw [bumpW_getD r _ c (by omega), extendWF_getD r r.length ws c (by omega)]
  by_cases hcr : c < r.length
  · rw [if_pos hcr]
    by_cases hcw : c < ws.length
    · rw [if_pos hcw]
    · rw [if_neg hcw, if_pos hcr,
        hA (r.getD c []) (by
          rw [List.getD_eq_getElem _ _ hcr]
          exact List.getElem_mem _),
        List.getD_eq_default ws 0 (by omega)]
      omega
  · rw [if_neg hcr]
    have hrune : runeCount (r.getD c []) = 0 := by
      rw [List.getD_eq_default r [] (by omega)]
      rfl
    rw [hrune]
    by_cases hcw : c < ws.length
    · rw [if_pos hcw]
      omega
    · rw [if_neg hcw, if_neg hcr, List.getD_eq_default ws 0 (by omega)]
      omega

theorem widthsOf_eq_fold (data : List Row) :
    ∀ acc : List Nat,
      data.foldl widthsStep acc
        = (data.filterMap id).foldl (fun ws r => widthsStep ws (some r)) acc := by
  induction data with
  | nil => intro acc; rfl
  | cons row rest ih =>
    intro acc
    cases row with
    | none => exact ih acc
    | some r =>
      rw [List.foldl_cons,
        show List.filterMap id (some r :: rest) = r :: List.filterMap id rest
          from rfl,
        List.foldl_cons]
      exact ih _

theorem fold_combine_length (rows : List (List GStr)) :
    ∀ acc : List Nat,
      (rows.foldl (fun ws r => widthsStep ws (some r)) acc).length
        = max acc.length (rows.foldr (fun r m => max r.length m) 0) := by
  induction rows with
  | nil => intro acc; simp
  | cons r rest ih =>
    intro acc
    rw [List.foldl_cons, ih _, combine_length, List.foldr_cons]
    omega

theorem fold_combine_getD (rows : List (List GStr))
    (hA : ∀ r ∈ rows, ∀ cell ∈ r, byteLen cell = runeCount cell) :
    ∀ (acc : List Nat) (c : Nat),
      (rows.foldl (fun ws r => widthsStep ws (some r)) acc).getD c 0
        = max (acc.getD c 0)
            (rows.foldr (fun r m => max (runeCount (r.getD c [])) m) 0) := by
  induction rows with
  | nil => intro acc c; simp
  | cons r rest ih =>
    intro acc c
    rw [List.foldl_cons,
      ih (fun x hx => hA x (List.mem_cons_of_mem _ hx)) _ c,
      combine_getD acc r (hA r (List.mem_cons_self _ _)) c, List.foldr_cons]
    omega

/-- Under single-byte cells, the computed widths are exactly the spec's
per-column maxima of codepoint counts. -/
theorem widthsOf_eq_spec (data : List Row) (hA : asciiGrid data) :
    widthsOf data = specColWidths data := by
  have h1 : widthsOf data
      = (data.filterMap id).foldl (fun ws r => widthsStep ws (some r)) [] :=
    widthsOf_eq_fold data []
  apply List.ext_getElem
  · rw [h1, fold_combine_length]
    simp [specColWidths, columnCount]
  · intro i hi1 hi2
    rw [← List.getD_eq_getElem _ 0 hi1, ← List.getD_eq_getElem _ 0 hi2, h1,
      fold_combine_getD (data.filterMap id) hA [] i]
    have hin : i < columnCount data := by
      simpa [specColWidths] using hi2
    rw [show specColWidths data
        = (List.range (columnCount data)).map (fun c =>
            (data.filterMap id).foldr
              (fun r m => max (runeCount (r.getD c [])) m) 0) from rfl,
      getD_map_range _ _ i 0 hin]
    simp

theorem le_foldr_max (f : α → Nat) (l : List α) (x : α) (hx : x ∈ l) :
    f x ≤ l.foldr (fun a m => max (f a) m) 0 := by
  induction l with
  | nil => simp at hx
  | cons a t ih =>
    rw [List.foldr_cons]
    rcases List.mem_cons.mp hx with rfl | hx'
    · omega
    · have := ih hx'
      omega

/-- Widths dominate every cell's codepoint count (the spec's invariant),
under single-byte cells. -/
theorem widths_ge_cells (data : List Row) (hA : asciiGrid data)
    (cells : List GStr) (hm : some cells ∈ data) (c : Nat)
    (hc : c < cells.length) :
    runeCount (cells.getD c []) ≤ (widthsOf data).getD c 0 := by
  rw [widthsOf_eq_spec data hA]
  have hmemrows : cells ∈ data.filterMap id :=
    List.mem_filterMap.mpr ⟨some cells, hm, rfl⟩
  have hN : cells.length ≤ columnCount data :=
    le_foldr_max (fun r => r.length) _ cells hmemrows
  rw [show specColWidths data
      = (List.range (columnCount data)).map (fun c =>
          (data.filterMap id).foldr
            (fun r m => max (runeCount (r.getD c [])) m) 0) from rfl,
    getD_map_range _ _ c 0 (by omega)]
  exact le_foldr_max (fun r => runeCount (r.getD c [])) _ cells hmemrows

/-- A padded field's codepoint count is exactly the column width for
right-aligned cells and for right-padded left/centered cells. -/
theorem alignField_runeCount (a : Alignment) (w : Nat) (v : GStr)
    (padR : Bool) (hv : runeCount v ≤ w)
    (h : a = Alignment.Right ∨ padR = true) :
    runeCount (alignField a w v padR) = w := by
  cases a with
  | Right =>
    simp [alignField, runeCount, spaces]
    simp only [runeCount] at hv
    omega
  | Center =>
    rcases h with h | h
    · exact absurd h (by simp)
    · subst h
      have hk : (w - runeCount v) / 2 ≤ w - runeCount v := Nat.div_le_self _ _
      simp [alignField, runeCount, spaces]
      simp only [runeCount] at hv hk
      omega
  | Left =>
    rcases h with h | h
    · exact absurd h (by simp)
    · subst h
      simp [alignField, runeCount, spaces]
      simp only [runeCount] at hv
      omega

/-- C1 counterexample: the width-extension loop measures a column's first
cell in *bytes* (part_001 line 345), so a two-codepoint multibyte cell
sets the column width to 4, not the maximum codepoint count 2. -/
theorem align_widths_counterexample :
    widthsOf (preprocess [some [gstr "\u00e9\u00e9"], some [gstr "ab"]]
        NewDefaultAlignOptions none) = [4] ∧
    specColWidths (preprocess [some [gstr "\u00e9\u00e9"], some [gstr "ab"]]
        NewDefaultAlignOptions none) = [2] := by
  refine ⟨by decide, by decide⟩

/-- C1 amended: over the expanded grid, provided all cells are
single-byte, the column widths equal the spec's per-column maximum
codepoint counts; the widths dominate every cell; and a rendered field is
exactly its column's width whenever the column is right-aligned or the
field keeps its right padding (the final Left/Center cell of a row drops
it unless LeaveTrailingWhitespace is set). -/
theorem align_widths_per_spec (data : List Row) (opts : AlignOptions)
    (sz : Option Int) (hA : asciiGrid (preprocess data opts sz)) :
    widthsOf (preprocess data opts sz)
        = specColWidths (preprocess data opts sz) ∧
    (∀ cells, some cells ∈ preprocess data opts sz → ∀ c, c < cells.length →
      runeCount (cells.getD c [])
        ≤ (widthsOf (preprocess data opts sz)).getD c 0) ∧
    (∀ (a : Alignment) (w : Nat) (v : GStr) (padR : Bool),
      runeCount v ≤ w → (a = Alignment.Right ∨ padR = true) →
      runeCount (alignField a w v padR) = w) :=
  ⟨widthsOf_eq_spec _ hA,
    fun cells hm c hc => widths_ge_cells _ hA cells hm c hc,
    fun a w v padR hv h => alignField_runeCount a w v padR hv h⟩

/-- Witness for C1 amended on a small single-byte grid. -/
theorem align_widths_per_spec_witness :
    asciiGrid (preprocess [some [gstr "ab", gstr "c"], some [gstr "d"]]
        NewDefaultAlignOptions none) ∧
    widthsOf (preprocess [some [gstr "ab", gstr "c"], some [gstr "d"]]
        NewDefaultAlignOptions none)
      = specColWidths (preprocess [some [gstr "ab", gstr "c"], some [gstr "d"]]
          NewDefaultAlignOptions none) :=
  ⟨by decide,
    (align_widths_per_spec [some [gstr "ab", gstr "c"], some [gstr "d"]]
      NewDefaultAlignOptions none (by decide)).1⟩

/-! ### Short rows (C2) -/

theorem filterMap_id_map_pad (data : List Row) (f : List GStr → List GStr) :
    List.filterMap id (data.map (Option.map f))
      = (List.filterMap id data).map f := by
  induction data with
  | nil => rfl
  | cons row rest ih =>
    cases row with
    | none => simpa using ih
    | some r => simpa using ih

theorem getD_pad (r : List GStr) (k c : Nat) :
    (r ++ List.replicate k ([] : GStr)).getD c [] = r.getD c [] := by
  by_cases hc : c < r.length
  · exact List.getD_append _ _ _ _ hc
  · rw [List.getD_eq_default r [] (by omega)]
    by_cases hck : c < r.length + k
    · rw [List.getD_append_right _ _ _ _ (by omega),
        List.getD_eq_getElem _ _ (by simp; omega)]
      simp
    · rw [List.getD_eq_default _ _ (by simp; omega)]

theorem foldr_max_const (f : α → Nat) (n : Nat) (l : List α)
    (hl : l ≠ []) (hall : ∀ x ∈ l, f x = n) :
    l.foldr (fun a m => max (f a) m) 0 = n := by
  induction l with
  | nil => exact absurd rfl hl
  | cons a t ih =>
    rw [List.foldr_cons, hall a (List.mem_cons_self _ _)]
    cases t with
    | nil => simp
    | cons b u =>
      rw [ih (by simp) (fun x hx => hall x (List.mem_cons_of_mem _ hx))]
      omega

theorem columnCount_pad (data : List Row) :
    columnCount (padGrid (columnCount data) data) = columnCount data := by
  show (List.filterMap id (padGrid (columnCount data) data)).foldr
      (fun r m => max r.length m) 0 = columnCount data
  unfold padGrid
  rw [filterMap_id_map_pad]
  cases hrows : List.filterMap id data with
  | nil => simp [columnCount, hrows]
  | cons r rest =>
    rw [← hrows]
    have hne : (List.filterMap id data).map
        (fun r => r ++ List.replicate (columnCount data - r.length) []) ≠ [] := by
      rw [hrows]; simp
    rw [foldr_max_const (fun r => r.length) (columnCount data) _ hne (by
      intro x hx
      rcases List.mem_map.mp hx with ⟨r0, hr0, rfl⟩
      have hler : r0.length ≤ columnCount data :=
        le_foldr_max (fun r => r.length) _ r0 hr0
      simp
      omega)]

theorem specColWidths_pad (data : List Row) :
    specColWidths (padGrid (columnCount data) data) = specColWidths data := by
  unfold specColWidths
  rw [columnCount_pad]
  apply List.map_congr_left
  intro c _
  unfold padGrid
  rw [filterMap_id_map_pad, List.foldr_map]
  have hfun : (fun (x : List GStr) (y : Nat) =>
      max (runeCount
        ((x ++ List.replicate (columnCount data - x.length) ([] : GStr)).getD
          c [])) y)
      = fun (x : List GStr) (y : Nat) => max (runeCount (x.getD c [])) y := by
    funext x y
    rw [getD_pad]
  rw [hfun]

theorem asciiGrid_pad (data : List Row) (n : Nat) (hA : asciiGrid data) :
    asciiGrid (padGrid n data) := by
  intro r hr cell hcell
  unfold padGrid at hr
  rw [filterMap_id_map_pad] at hr
  rcases List.mem_map.mp hr with ⟨r0, hr0, rfl⟩
  rcases List.mem_append.mp hcell with h | h
  · exact hA r0 hr0 cell h
  · rw [List.eq_of_mem_replicate h]
    rfl

/-- C2 counterexample: a short row's rendered line omits the missing
columns entirely — it is not rendered like the row padded with an
explicit empty cell, which the claim's "padded empty field and the usual
connectors for each missing column" would demand. -/
theorem short_row_render_counterexample :
    Align [some [gstr "a", gstr "b"], some [gstr "c"]]
        (some { RowSecondUD := gstr " ", RowUD := gstr " ",
                RowLastUD := gstr "|" }) none
      = some (gstr "a b|\nc|\n") ∧
    Align [some [gstr "a", gstr "b"], some [gstr "c"]]
        (some { RowSecondUD := gstr " ", RowUD := gstr " ",
                RowLastUD := gstr "|" }) none
      ≠ Align [some [gstr "a", gstr "b"], some [gstr "c", gstr ""]]
          (some { RowSecondUD := gstr " ", RowUD := gstr " ",
                  RowLastUD := gstr "|" }) none := by
  refine ⟨by decide, by decide⟩

/-- C2 amended: during width measurement, missing trailing columns behave
exactly like empty cells (padding every data row with empty cells to the
column count leaves the computed widths unchanged, for single-byte
grids); during rendering, however, a short row's line simply ends after
its last actual cell — with LeaveTrailingWhitespace set, its cell fields
are a prefix of the padded row's fields. -/
theorem short_rows_per_spec :
    (∀ data : List Row, asciiGrid data →
      widthsOf (padGrid (columnCount data) data) = widthsOf data) ∧
    (∀ (opts : AlignOptions) (aligns : List Alignment) (widths : List Nat)
        (r extra : List GStr), opts.LeaveTrailingWhitespace = true →
      ∃ t, dataRowBody opts aligns widths r ++ t
        = dataRowBody opts aligns widths (r ++ extra)) := by
  constructor
  · intro data hA
    rw [widthsOf_eq_spec _ (asciiGrid_pad data _ hA), widthsOf_eq_spec _ hA,
      specColWidths_pad]
  · intro opts aligns widths r extra hflag
    unfold dataRowBody
    simp only [hflag, Bool.true_or]
    rw [List.enum_append, List.map_append, List.flatten_append]
    exact ⟨_, rfl⟩

/-- Witness for C2 amended: padding the ragged single-byte grid leaves
the widths unchanged. -/
theorem short_rows_per_spec_witness :
    asciiGrid [some [gstr "a", gstr "b"], some [gstr "c"]] ∧
    widthsOf (padGrid (columnCount [some [gstr "a", gstr "b"], some [gstr "c"]])
        [some [gstr "a", gstr "b"], some [gstr "c"]])
      = widthsOf [some [gstr "a", gstr "b"], some [gstr "c"]] :=
  ⟨by decide,
    short_rows_per_spec.1 [some [gstr "a", gstr "b"], some [gstr "c"]]
      (by decide)⟩

end Brimtext
